import Mathlib

/-!
Verification of the skill-system core (registry, session-state reducers,
dynamic tool filter) against its design description.

The Lean definitions below are a shallow embedding of the Python sources:
  - skill_system/core/state.py      (reducers over loaded-skill name lists)
  - skill_system/core/base_skill.py (SkillMetadata, BaseSkill, validate)
  - skill_system/core/registry.py   (SkillRegistry and its operations)
  - skill_system/middleware/skill_middleware.py (SkillMiddleware)

Python dicts are embedded as association lists with insertion-order
semantics (assigning to an existing key keeps its position, a fresh key is
appended); exceptions are embedded as `Except`; `None` as `Option.none`.
-/

namespace SkillSystem

/-! ## state.py -/

/-- `skill_list_reducer` from `core/state.py`: replace mode, the new list
replaces the old one unconditionally. -/
def skill_list_reducer (current new : List String) : List String :=
  new

/-- `skill_list_accumulator` from `core/state.py`: if `current` is falsy
(empty) return `new`, else `current + [s for s in new if s not in current]`. -/
def skill_list_accumulator (current new : List String) : List String :=
  if current.isEmpty then new
  else current ++ new.filter (fun s => decide (s ∉ current))

/-- The reducer produced by `skill_list_fifo(max_skills)` in `core/state.py`:
if `current` is falsy return `new[:max_skills]`, else build
`combined = current + [s for s in new if s not in current]` and return
`combined[-max_skills:]`.  Python slicing `combined[-k:]` with `k = 0` is
`combined[0:]`, i.e. the whole list, hence the explicit zero case. -/
def skill_list_fifo (max_skills : Nat) (current new : List String) : List String :=
  if current.isEmpty then new.take max_skills
  else
    let combined := current ++ new.filter (fun s => decide (s ∉ current))
    if max_skills = 0 then combined
    else combined.drop (combined.length - max_skills)

/-- Spec-side formulation: the last `k` entries of a list. -/
def lastEntries (k : Nat) (l : List String) : List String :=
  (l.reverse.take k).reverse

/-! ## base_skill.py -/

/-- A LangChain tool as seen by the core: only `name` and `description`
participate in the logic under verification; schema and handler are opaque. -/
structure Tool where
  name : String
  description : String
deriving DecidableEq

/-- `SkillMetadata` from `core/base_skill.py`. -/
structure SkillMetadata where
  name : String
  description : String
  version : String
  tags : List String
  visibility : String
  dependencies : List String
  required_permissions : List String
  author : Option String
  enabled : Bool
deriving DecidableEq

/-- A `BaseSkill` instance from `core/base_skill.py`: its metadata, the
list returned by `get_tools()`, and the value returned by
`get_loader_tool()` (`none` embeds a falsy/`None` return, which the
abstract Python signature permits and `validate` rejects). -/
structure BaseSkill where
  metadata : SkillMetadata
  tools : List Tool
  loader : Option Tool
deriving DecidableEq

def BaseSkill.get_tools (s : BaseSkill) : List Tool :=
  s.tools

def BaseSkill.get_loader_tool (s : BaseSkill) : Option Tool :=
  s.loader

/-- The error taxonomy: Python `ValueError` raised by `BaseSkill.validate`
embeds as `validationError`, `SkillNotFoundError` as `notFoundError`. -/
inductive SkillError where
  | validationError (msg : String)
  | notFoundError (name : String)
deriving DecidableEq

/-- `BaseSkill.validate` from `core/base_skill.py`: checks name,
description, tools and loader in order, raising `ValueError` on the first
falsy one, returning `True` otherwise. -/
def BaseSkill.validate (s : BaseSkill) : Except SkillError Bool :=
  if s.metadata.name = "" then
    .error (.validationError "Skill name cannot be empty")
  else if s.metadata.description = "" then
    .error (.validationError "Skill description cannot be empty")
  else if s.get_tools = [] then
    .error (.validationError "Skill must provide at least one tool")
  else if s.get_loader_tool = none then
    .error (.validationError "Skill must provide a loader tool")
  else
    .ok true

/-! ## registry.py

Python dicts keep insertion order; assignment to an existing key replaces
the value in place, a fresh key is appended at the end. -/

def dictInsert {β : Type} (l : List (String × β)) (k : String) (v : β) :
    List (String × β) :=
  match l with
  | [] => [(k, v)]
  | (k1, v1) :: rest =>
    if k1 = k then (k, v) :: rest else (k1, v1) :: dictInsert rest k v

def dictGet {β : Type} (l : List (String × β)) (k : String) : Option β :=
  match l with
  | [] => none
  | (k1, v1) :: rest => if k1 = k then some v1 else dictGet rest k

/-- `SkillRegistry` state: the `_skills` dict and the `_metadata_cache`
dict, both name-keyed and insertion-ordered. -/
structure SkillRegistry where
  skills : List (String × BaseSkill)
  metadata_cache : List (String × SkillMetadata)
deriving DecidableEq

/-- `SkillRegistry()`: both dicts start empty. -/
def SkillRegistry.empty : SkillRegistry :=
  ⟨[], []⟩

/-- `SkillRegistry.register`: `skill.validate()` runs first (its exception
propagates, leaving the registry untouched); then both dicts are updated
under `skill.metadata.name` — an existing entry is overwritten (warn only). -/
def SkillRegistry.register (r : SkillRegistry) (skill : BaseSkill) :
    Except SkillError SkillRegistry :=
  match skill.validate with
  | .error e => .error e
  | .ok _ =>
    .ok ⟨dictInsert r.skills skill.metadata.name skill,
         dictInsert r.metadata_cache skill.metadata.name skill.metadata⟩

/-- `SkillRegistry.get`: raises `SkillNotFoundError` when the name is not
registered. -/
def SkillRegistry.get (r : SkillRegistry) (skill_name : String) :
    Except SkillError BaseSkill :=
  match dictGet r.skills skill_name with
  | none => .error (.notFoundError skill_name)
  | some s => .ok s

/-- `SkillRegistry.__len__`. -/
def SkillRegistry.size (r : SkillRegistry) : Nat :=
  r.skills.length

/-- `SkillRegistry.__contains__`. -/
def SkillRegistry.hasSkill (r : SkillRegistry) (skill_name : String) : Bool :=
  (dictGet r.skills skill_name).isSome

/-- `SkillRegistry.list_skills` on the `filter_fn=None` path:
`list(self._skills.keys())`. -/
def SkillRegistry.list_skills (r : SkillRegistry) : List String :=
  r.skills.map Prod.fst

/-- `SkillRegistry.get_all_loader_tools` on the `filter_fn=None` path: for
each registered name in order, if the skill is enabled append its loader
tool.  (`dictGet` cannot miss for names produced by `list_skills`, and a
registered skill always carries a loader.) -/
def SkillRegistry.get_all_loader_tools (r : SkillRegistry) : List Tool :=
  r.list_skills.flatMap (fun name =>
    match dictGet r.skills name with
    | some skill =>
      if skill.metadata.enabled then skill.get_loader_tool.toList else []
    | none => [])

/-- `SkillRegistry.get_tools_for_skills`: all loader tools, then for each
name in `skill_names` (in the given order) that is registered and enabled,
that skill's tools; unknown or disabled names contribute nothing. -/
def SkillRegistry.get_tools_for_skills (r : SkillRegistry)
    (skill_names : List String) : List Tool :=
  r.get_all_loader_tools ++
    skill_names.flatMap (fun name =>
      match dictGet r.skills name with
      | some skill => if skill.metadata.enabled then skill.get_tools else []
      | none => [])

/-- Well-formedness invariant maintained by every registry operation:
keys are pairwise distinct and each skill is stored under its own
metadata name. -/
def SkillRegistry.wf (r : SkillRegistry) : Prop :=
  (r.skills.map Prod.fst).Nodup ∧ ∀ p ∈ r.skills, p.2.metadata.name = p.1

/-! ## Discovery (`SkillRegistry.discover_and_load`)

The filesystem walk and the dynamic import are external collaborators;
what reaches the registry logic per subdirectory entry is one of four
outcomes, embedded as `DirEntry`: the path is not a directory, the
directory has no `skill.py`, `_load_skill_from_file` raises, or it
returns a `BaseSkill`.  A missing root directory embeds as `none`. -/

inductive DirEntry where
  | notDir
  | noSkillFile
  | loadFailure (msg : String)
  | loadedSkill (skill : BaseSkill)
deriving DecidableEq

/-- One iteration of the `discover_and_load` loop: non-directories and
directories without the module file are skipped by `continue`; a load
failure or a registration failure is caught, logged and skipped; a
successful `register` increments `loaded_count`. -/
def SkillRegistry.discover_step (acc : SkillRegistry × Nat) (e : DirEntry) :
    SkillRegistry × Nat :=
  match e with
  | .notDir => acc
  | .noSkillFile => acc
  | .loadFailure _ => acc
  | .loadedSkill skill =>
    match acc.1.register skill with
    | .ok r1 => (r1, acc.2 + 1)
    | .error _ => acc

/-- `SkillRegistry.discover_and_load`: returns 0 and changes nothing when
the root directory does not exist; otherwise folds the loop body over the
directory entries, returning the updated registry and the count of
successfully loaded skills. -/
def SkillRegistry.discover_and_load (r : SkillRegistry)
    (root : Option (List DirEntry)) : SkillRegistry × Nat :=
  match root with
  | none => (r, 0)
  | some entries => entries.foldl SkillRegistry.discover_step (r, 0)

/-- Whether a directory entry will be counted by `discover_and_load`:
only a loaded skill that passes validation (registration succeeds exactly
when validation does, independent of the registry contents). -/
def entrySucceeds (e : DirEntry) : Bool :=
  match e with
  | .loadedSkill skill =>
    match skill.validate with
    | .ok _ => true
    | .error _ => false
  | _ => false

/-! ## skill_middleware.py -/

/-- The agent state dict as the middleware reads it: the
`skills_loaded` key may be absent (`state.get("skills_loaded", [])`). -/
structure StateDict where
  skills_loaded : Option (List String)
deriving DecidableEq

/-- A `ModelRequest` as far as the middleware inspects it: `state` may be
missing or `None` (embedded together as `none`). -/
structure ModelRequest where
  state : Option StateDict
deriving DecidableEq

/-- `SkillMiddleware.__init__` stores the registry, the verbose flag and
the optional secondary predicate `filter_fn`. -/
structure SkillMiddleware where
  registry : SkillRegistry
  verbose : Bool
  filter_fn : Option (Tool → Bool)

/-- `SkillMiddleware._get_filtered_tools`: delegates to
`registry.get_tools_for_skills(skills_loaded)`; `filter_fn` is not
consulted on this path. -/
def SkillMiddleware.get_filtered_tools (m : SkillMiddleware)
    (skills_loaded : List String) : List Tool :=
  m.registry.get_tools_for_skills skills_loaded

/-- The `skills_loaded` extraction shared by both wrap methods:
`[]` when the request has no usable state, else
`state.get("skills_loaded", [])`. -/
def readSkillsLoaded (req : ModelRequest) : List String :=
  match req.state with
  | none => []
  | some st => st.skills_loaded.getD []

/-- The tool list that `SkillMiddleware.wrap_model_call` passes to the
handler via `request.override(tools=...)` (the synchronous path; the
verbose logging does not feed back into the computation). -/
def SkillMiddleware.wrap_model_call_tools (m : SkillMiddleware)
    (req : ModelRequest) : List Tool :=
  m.get_filtered_tools
    (match req.state with
     | none => []
     | some st => st.skills_loaded.getD [])

/-- The tool list that `SkillMiddleware.awrap_model_call` passes to the
handler (the asynchronous path, a duplicated body in the source). -/
def SkillMiddleware.awrap_model_call_tools (m : SkillMiddleware)
    (req : ModelRequest) : List Tool :=
  m.get_filtered_tools
    (match req.state with
     | none => []
     | some st => st.skills_loaded.getD [])

/-! ## Concrete sample data used by witnesses -/

def loaderAlpha : Tool :=
  ⟨"load_alpha", "Activate the alpha skill"⟩

def toolAlphaOne : Tool :=
  ⟨"alpha_one", "First alpha tool"⟩

def toolAlphaTwo : Tool :=
  ⟨"alpha_two", "Second alpha tool"⟩

def skillAlpha : BaseSkill :=
  ⟨⟨"alpha", "Alpha skill", "1.0.0", [], "public", [], [], none, true⟩,
   [toolAlphaOne], some loaderAlpha⟩

def skillAlphaV2 : BaseSkill :=
  ⟨⟨"alpha", "Alpha skill, second edition", "2.0.0", [], "public", [], [], none, true⟩,
   [toolAlphaTwo], some loaderAlpha⟩

/-- A malformed bundle: it provides no tools, so `validate` raises. -/
def badSkillNoTools : BaseSkill :=
  ⟨⟨"bad", "Bad skill", "1.0.0", [], "public", [], [], none, true⟩,
   [], some loaderAlpha⟩

def loaderBeta : Tool :=
  ⟨"load_beta", "Activate the beta skill"⟩

def toolBetaOne : Tool :=
  ⟨"beta_one", "First beta tool"⟩

def skillBeta : BaseSkill :=
  ⟨⟨"beta", "Beta skill", "1.0.0", [], "public", [], [], none, true⟩,
   [toolBetaOne], some loaderBeta⟩

/-- A non-empty well-formed registry, holding the beta skill. -/
def registryWithBeta : SkillRegistry :=
  ⟨[("beta", skillBeta)], [("beta", skillBeta.metadata)]⟩

/-! ## Helper lemmas on the reducers -/

theorem lastEntries_eq_drop (k : Nat) (l : List String) :
    lastEntries k l = l.drop (l.length - k) := by
  simp [lastEntries, List.take_reverse]

theorem skill_list_accumulator_eq (current new : List String) :
    skill_list_accumulator current new
      = current ++ new.filter (fun s => decide (s ∉ current)) := by
  unfold skill_list_accumulator
  by_cases h : current.isEmpty
  · rw [List.isEmpty_iff] at h
    subst h
    simp
  · simp [h]

theorem skill_list_fifo_eq (K : Nat) (current new : List String)
    (hK : 1 ≤ K) (h : current ≠ []) :
    skill_list_fifo K current new
      = (current ++ new.filter (fun s => decide (s ∉ current))).drop
          ((current ++ new.filter (fun s => decide (s ∉ current))).length - K) := by
  have hK0 : K ≠ 0 := by omega
  have h2 : current.isEmpty = false := by
    simp [List.isEmpty_iff, h]
  simp [skill_list_fifo, h2, hK0]

theorem combined_nodup (current new : List String)
    (hc : current.Nodup) (hn : new.Nodup) :
    (current ++ new.filter (fun s => decide (s ∉ current))).Nodup := by
  refine hc.append (hn.filter _) ?_
  intro a ha hf
  exact (of_decide_eq_true (List.mem_filter.mp hf).2) ha

theorem accumulator_foldl_distinct (names : List String) (h : names.Nodup) :
    names.foldl (fun st n => skill_list_accumulator st [n]) [] = names := by
  induction names using List.reverseRecOn with
  | nil => rfl
  | append_singleton l x ih =>
    obtain ⟨hl, -, hdisj⟩ := List.nodup_append.mp h
    have hx : x ∉ l := fun hm => hdisj hm (by simp)
    rw [List.foldl_append, ih hl]
    simp only [List.foldl_cons, List.foldl_nil]
    rw [skill_list_accumulator_eq]
    simp [hx]

theorem fifo_foldl_distinct (K : Nat) (hK : 1 ≤ K)
    (names : List String) (h : names.Nodup) :
    names.foldl (fun st n => skill_list_fifo K st [n]) []
      = names.drop (names.length - K) := by
  induction names using List.reverseRecOn with
  | nil => simp
  | append_singleton l x ih =>
    obtain ⟨hl, -, hdisj⟩ := List.nodup_append.mp h
    have hx : x ∉ l := fun hm => hdisj hm (by simp)
    rw [List.foldl_append, ih hl]
    simp only [List.foldl_cons, List.foldl_nil]
    by_cases hnil : l = []
    · subst hnil
      have h1K : 1 - K = 0 := by omega
      simp [skill_list_fifo, List.take_of_length_le, hK, h1K]
    · have hlen : 1 ≤ l.length := List.length_pos.mpr hnil
      set st := l.drop (l.length - K) with hst
      have hstlen : st.length = l.length - (l.length - K) := List.length_drop _ _
      have hstnil : st ≠ [] := by
        intro hemp
        have := congrArg List.length hemp
        rw [hstlen] at this
        simp at this
        omega
      have hxst : x ∉ st := fun hm => hx (List.mem_of_mem_drop hm)
      rw [skill_list_fifo_eq K st [x] hK hstnil]
      have hfilter : ([x].filter (fun s => decide (s ∉ st))) = [x] := by
        simp [hxst]
      rw [hfilter]
      by_cases hKl : K ≤ l.length
      · have hstK : st.length = K := by omega
        have hlb : (st ++ [x]).length = K + 1 := by simp [hstK]
        have hla : (l ++ [x]).length = l.length + 1 := by simp
        rw [hlb, hla]
        have hd1 : K + 1 - K = 1 := by omega
        rw [hd1]
        rw [List.drop_append_of_le_length (by omega : 1 ≤ st.length),
          List.drop_append_of_le_length (by omega : l.length + 1 - K ≤ l.length)]
        have hdd : st.drop 1 = l.drop (l.length + 1 - K) := by
          rw [hst, List.drop_drop]
          congr 1
          omega
        rw [hdd]
      · have hst_all : st = l := by
          rw [hst]
          have h0 : l.length - K = 0 := by omega
          rw [h0, List.drop_zero]
        rw [hst_all]

/-! ## Theorems for the reducer claims -/

/-- C2 counterexample: the no-duplicates invariant fails as soon as the
incoming list itself contains a duplicate — all three policies return a
list with a duplicate name on concrete inputs. -/
theorem skill_reducers_duplicate_counterexample :
    ¬ (skill_list_reducer ["x"] ["a", "a"]).Nodup ∧
    ¬ (skill_list_accumulator [] ["a", "a"]).Nodup ∧
    ¬ (skill_list_fifo 3 [] ["a", "a"]).Nodup ∧
    ¬ (skill_list_accumulator ["a", "a"] ["b"]).Nodup := by
  refine ⟨?_, ?_, ?_, ?_⟩ <;> decide

/-- C2 (amended): for every policy (Replace, Accumulate, Bounded-FIFO(K)),
if `current` and `incoming` each contain no duplicate name then the
returned list contains no duplicate name. -/
theorem skill_reducers_nodup (K : Nat) (current new : List String)
    (hc : current.Nodup) (hn : new.Nodup) :
    (skill_list_reducer current new).Nodup ∧
    (skill_list_accumulator current new).Nodup ∧
    (skill_list_fifo K current new).Nodup := by
  refine ⟨hn, ?_, ?_⟩
  · rw [skill_list_accumulator_eq]
    exact combined_nodup current new hc hn
  · by_cases h : current.isEmpty
    · rw [List.isEmpty_iff] at h
      subst h
      simp only [skill_list_fifo, List.isEmpty_nil, if_true]
      exact List.Nodup.sublist (List.take_sublist _ _) hn
    · have hne : current ≠ [] := by
        simpa [List.isEmpty_iff] using h
      have hcomb := combined_nodup current new hc hn
      simp only [skill_list_fifo, List.isEmpty_iff, hne, if_false]
      by_cases hK : K = 0
      · simpa [hK] using hcomb
      · simp only [hK, if_false]
        exact List.Nodup.sublist (List.drop_sublist _ _) hcomb

/-- C2 witness. -/
theorem skill_reducers_nodup_witness :
    (skill_list_reducer ["a"] ["b"]).Nodup ∧
    (skill_list_accumulator ["a"] ["b"]).Nodup ∧
    (skill_list_fifo 2 ["a"] ["b"]).Nodup :=
  skill_reducers_nodup 2 ["a"] ["b"] (by decide) (by decide)

/-- C4: the accumulator returns `current` followed by the members of
`incoming` not already in `current`; hence `current` is a prefix of the
result, N distinct singleton loads from the empty state give exactly those
N names in first-seen order, and re-loading a present name is a no-op. -/
theorem skill_list_accumulator_spec (current new : List String) :
    skill_list_accumulator current new
      = current ++ new.filter (fun s => decide (s ∉ current)) ∧
    (∃ t, skill_list_accumulator current new = current ++ t) ∧
    (∀ names : List String, names.Nodup →
      names.foldl (fun st n => skill_list_accumulator st [n]) [] = names) ∧
    (∀ x, x ∈ current → skill_list_accumulator current [x] = current) := by
  refine ⟨skill_list_accumulator_eq current new,
    ⟨_, skill_list_accumulator_eq current new⟩,
    fun names h => accumulator_foldl_distinct names h,
    fun x hx => ?_⟩
  rw [skill_list_accumulator_eq]
  simp [hx]

/-- C4 witness. -/
theorem skill_list_accumulator_spec_witness :
    skill_list_accumulator ["a"] ["a"] = ["a"] ∧
    (["a", "b"] : List String).foldl
      (fun st n => skill_list_accumulator st [n]) [] = ["a", "b"] :=
  ⟨(skill_list_accumulator_spec ["a"] ["a"]).2.2.2 "a" (by decide),
   (skill_list_accumulator_spec [] []).2.2.1 ["a", "b"] (by decide)⟩

/-- C3: for K ≥ 1 the FIFO reducer returns, on a non-empty `current`, the
last K entries of (`current` followed by the incoming items not already in
`current`); on an empty `current` the first K entries of `incoming`.
Consequently K+1 distinct singleton loads from the empty state leave K
names and evict the earliest one, and re-loading a present name (from a
state within the bound) leaves the state unchanged — no recency promotion. -/
theorem skill_list_fifo_spec (K : Nat) (current new : List String) (hK : 1 ≤ K) :
    (current ≠ [] →
      skill_list_fifo K current new
        = lastEntries K (current ++ new.filter (fun s => decide (s ∉ current)))) ∧
    (current = [] → skill_list_fifo K current new = new.take K) ∧
    (∀ names : List String, names.Nodup → names.length = K + 1 →
      (names.foldl (fun st n => skill_list_fifo K st [n]) []).length = K ∧
      ∀ x rest, names = x :: rest →
        x ∉ names.foldl (fun st n => skill_list_fifo K st [n]) []) ∧
    (∀ x, x ∈ current → current.length ≤ K → skill_list_fifo K current [x] = current) := by
  refine ⟨?_, ?_, ?_, ?_⟩
  · intro h
    rw [lastEntries_eq_drop, skill_list_fifo_eq K current new hK h]
  · intro h
    subst h
    simp [skill_list_fifo]
  · intro names hnd hlen
    rw [fifo_foldl_distinct K hK names hnd]
    constructor
    · rw [List.length_drop]
      omega
    · intro x rest hx
      subst hx
      have h1 : (x :: rest).length - K = 1 := by
        simp only [List.length_cons] at hlen ⊢
        omega
      rw [h1]
      simp only [List.drop_one, List.tail_cons]
      exact (List.nodup_cons.mp hnd).1
  · intro x hx hle
    have hne : current ≠ [] := List.ne_nil_of_mem hx
    rw [skill_list_fifo_eq K current [x] hK hne]
    have hfilter : ([x].filter (fun s => decide (s ∉ current))) = [] := by
      simp [hx]
    rw [hfilter]
    simp only [List.append_nil]
    have : current.length - K = 0 := by omega
    rw [this, List.drop_zero]

/-- C3 witness. -/
theorem skill_list_fifo_spec_witness :
    skill_list_fifo 1 ["a"] ["b"]
      = lastEntries 1 (["a"] ++ (["b"].filter (fun s => decide (s ∉ (["a"] : List String))))) :=
  (skill_list_fifo_spec 1 ["a"] ["b"] (by decide)).1 (by decide)

/-! ## Helper lemmas on the registry -/

theorem dictGet_mem {β : Type} (l : List (String × β)) (k : String) (v : β)
    (h : dictGet l k = some v) : (k, v) ∈ l := by
  induction l with
  | nil => simp [dictGet] at h
  | cons p rest ih =>
    obtain ⟨k1, v1⟩ := p
    unfold dictGet at h
    by_cases hk : k1 = k
    · simp only [hk, if_true, Option.some.injEq] at h
      subst hk
      subst h
      exact List.mem_cons_self _ _
    · simp only [hk, if_false] at h
      exact List.mem_cons_of_mem _ (ih h)

theorem dictGet_dictInsert_self {β : Type} (l : List (String × β))
    (k : String) (v : β) : dictGet (dictInsert l k v) k = some v := by
  induction l with
  | nil => simp [dictInsert, dictGet]
  | cons p rest ih =>
    obtain ⟨k1, v1⟩ := p
    unfold dictInsert
    by_cases hk : k1 = k
    · simp [hk, dictGet]
    · simp [hk, dictGet, ih]

theorem mem_map_fst_dictInsert {β : Type} (l : List (String × β))
    (k a : String) (v : β) :
    a ∈ (dictInsert l k v).map Prod.fst ↔ a ∈ l.map Prod.fst ∨ a = k := by
  induction l with
  | nil => simp [dictInsert]
  | cons p rest ih =>
    obtain ⟨k1, v1⟩ := p
    unfold dictInsert
    by_cases hk : k1 = k
    · subst hk
      simp
      tauto
    · simp [hk, ih]
      tauto

theorem nodup_keys_dictInsert {β : Type} (l : List (String × β))
    (k : String) (v : β) (h : (l.map Prod.fst).Nodup) :
    ((dictInsert l k v).map Prod.fst).Nodup := by
  induction l with
  | nil => simp [dictInsert]
  | cons p rest ih =>
    obtain ⟨k1, v1⟩ := p
    rw [List.map_cons] at h
    obtain ⟨hk1, hrest⟩ := List.nodup_cons.mp h
    unfold dictInsert
    by_cases hk : k1 = k
    · subst hk
      rw [if_pos rfl, List.map_cons]
      exact List.nodup_cons.mpr ⟨hk1, hrest⟩
    · rw [if_neg hk, List.map_cons]
      refine List.nodup_cons.mpr ⟨?_, ih hrest⟩
      rw [mem_map_fst_dictInsert]
      rintro (h1 | h2)
      · exact hk1 h1
      · exact hk h2

theorem countP_key_dictInsert {β : Type} (l : List (String × β))
    (k : String) (v : β) (h : (l.map Prod.fst).Nodup) :
    (dictInsert l k v).countP (fun p => decide (p.1 = k)) = 1 := by
  induction l with
  | nil => simp [dictInsert]
  | cons p rest ih =>
    obtain ⟨k1, v1⟩ := p
    rw [List.map_cons] at h
    obtain ⟨hk1, hrest⟩ := List.nodup_cons.mp h
    unfold dictInsert
    by_cases hk : k1 = k
    · subst hk
      rw [if_pos rfl, List.countP_cons]
      have hzero : rest.countP (fun p => decide (p.1 = k1)) = 0 := by
        rw [List.countP_eq_zero]
        intro p hp hdec
        have hfst : p.1 = k1 := of_decide_eq_true hdec
        have hmem : p.1 ∈ rest.map Prod.fst := List.mem_map_of_mem Prod.fst hp
        rw [hfst] at hmem
        exact hk1 hmem
      simp [hzero]
    · rw [if_neg hk, List.countP_cons]
      simp [hk, ih hrest]

theorem validate_error_iff (skill : BaseSkill) :
    (∃ msg, skill.validate = Except.error (SkillError.validationError msg)) ↔
      (skill.metadata.name = "" ∨ skill.metadata.description = "" ∨
       skill.get_tools = [] ∨ skill.get_loader_tool = none) := by
  unfold BaseSkill.validate
  by_cases h1 : skill.metadata.name = "" <;>
    by_cases h2 : skill.metadata.description = "" <;>
      by_cases h3 : skill.get_tools = [] <;>
        by_cases h4 : skill.get_loader_tool = none <;>
          simp [h1, h2, h3, h4]

theorem validate_error_shape (skill : BaseSkill) (e : SkillError)
    (h : skill.validate = Except.error e) :
    ∃ msg, e = SkillError.validationError msg := by
  unfold BaseSkill.validate at h
  by_cases h1 : skill.metadata.name = ""
  · simp only [h1, if_true, Except.error.injEq] at h
    exact ⟨_, h.symm⟩
  by_cases h2 : skill.metadata.description = ""
  · simp only [h1, h2, if_true, if_false, Except.error.injEq] at h
    exact ⟨_, h.symm⟩
  by_cases h3 : skill.get_tools = []
  · simp only [h1, h2, h3, if_true, if_false, Except.error.injEq] at h
    exact ⟨_, h.symm⟩
  by_cases h4 : skill.get_loader_tool = none
  · simp only [h1, h2, h3, h4, if_true, if_false, Except.error.injEq] at h
    exact ⟨_, h.symm⟩
  · simp [h1, h2, h3, h4] at h

theorem register_error_iff_validate (r : SkillRegistry) (skill : BaseSkill)
    (e : SkillError) :
    r.register skill = Except.error e ↔ skill.validate = Except.error e := by
  unfold SkillRegistry.register
  cases h : skill.validate <;> simp [h]

theorem discover_foldl_count (entries : List DirEntry) :
    ∀ (r : SkillRegistry) (c : Nat),
      (entries.foldl SkillRegistry.discover_step (r, c)).2
        = c + entries.countP entrySucceeds := by
  induction entries with
  | nil =>
    intro r c
    simp
  | cons e rest ih =>
    intro r c
    rw [List.foldl_cons, List.countP_cons]
    cases e with
    | notDir => simpa [SkillRegistry.discover_step, entrySucceeds] using ih r c
    | noSkillFile => simpa [SkillRegistry.discover_step, entrySucceeds] using ih r c
    | loadFailure msg => simpa [SkillRegistry.discover_step, entrySucceeds] using ih r c
    | loadedSkill skill =>
      cases hv : skill.validate with
      | ok b =>
        have hstep : SkillRegistry.discover_step (r, c) (DirEntry.loadedSkill skill)
            = (⟨dictInsert r.skills skill.metadata.name skill,
                dictInsert r.metadata_cache skill.metadata.name skill.metadata⟩, c + 1) := by
          simp [SkillRegistry.discover_step, SkillRegistry.register, hv]
        rw [hstep, ih _ (c + 1)]
        simp [entrySucceeds, hv]
        omega
      | error e2 =>
        have hstep : SkillRegistry.discover_step (r, c) (DirEntry.loadedSkill skill)
            = (r, c) := by
          simp [SkillRegistry.discover_step, SkillRegistry.register, hv]
        rw [hstep, ih r c]
        simp [entrySucceeds, hv]

/-! ## Theorems for the registry and middleware claims -/

/-- C1: `get_tools_for_skills(loadedNames)` is exactly all loader tools of
enabled registered skills followed by, for each name in `loadedNames` in
order, that skill's tools when the name resolves through `get` to an
enabled skill and nothing otherwise (total, no error); and with nothing
loaded it is exactly `get_all_loader_tools()`. -/
theorem get_tools_for_skills_spec (r : SkillRegistry) (loadedNames : List String) :
    r.get_tools_for_skills loadedNames
      = r.get_all_loader_tools ++
        loadedNames.flatMap (fun name =>
          match r.get name with
          | Except.ok skill =>
            if skill.metadata.enabled then skill.get_tools else []
          | Except.error _ => []) ∧
    r.get_tools_for_skills [] = r.get_all_loader_tools := by
  constructor
  · unfold SkillRegistry.get_tools_for_skills
    congr 1
    have hfun : (fun name =>
        match dictGet r.skills name with
        | some skill => if skill.metadata.enabled then skill.get_tools else []
        | none => ([] : List Tool))
        = (fun name =>
            match r.get name with
            | Except.ok skill =>
              if skill.metadata.enabled then skill.get_tools else []
            | Except.error _ => []) := by
      funext name
      unfold SkillRegistry.get
      cases dictGet r.skills name <;> rfl
    rw [hfun]
  · simp [SkillRegistry.get_tools_for_skills]

/-- C5: on every well-formed registry, registering two valid bundles of
the same name in sequence raises no error, leaves exactly one entry under
that name (so registry size 1 when starting from empty), and `get`
returns the second bundle — last write wins. -/
theorem register_overwrite_spec (r : SkillRegistry) (A B : BaseSkill) (n : String)
    (hwf : r.wf) (hA : A.validate = Except.ok true) (hB : B.validate = Except.ok true)
    (hAn : A.metadata.name = n) (hBn : B.metadata.name = n) :
    ∃ r1 r2 : SkillRegistry,
      r.register A = Except.ok r1 ∧
      r1.register B = Except.ok r2 ∧
      r2.skills.countP (fun p => decide (p.1 = n)) = 1 ∧
      r2.get n = Except.ok B ∧
      (r = SkillRegistry.empty → r2.size = 1) := by
  refine ⟨⟨dictInsert r.skills n A, dictInsert r.metadata_cache n A.metadata⟩,
    ⟨dictInsert (dictInsert r.skills n A) n B,
     dictInsert (dictInsert r.metadata_cache n A.metadata) n B.metadata⟩,
    ?_, ?_, ?_, ?_, ?_⟩
  · simp [SkillRegistry.register, hA, hAn]
  · simp [SkillRegistry.register, hB, hBn]
  · exact countP_key_dictInsert _ n B (nodup_keys_dictInsert _ n A hwf.1)
  · unfold SkillRegistry.get
    simp [dictGet_dictInsert_self]
  · intro h
    subst h
    simp [SkillRegistry.empty, SkillRegistry.size, dictInsert]

/-- C5 witness: overwriting registration on a non-empty registry. -/
theorem register_overwrite_spec_witness :
    ∃ r1 r2 : SkillRegistry,
      registryWithBeta.register skillAlpha = Except.ok r1 ∧
      r1.register skillAlphaV2 = Except.ok r2 ∧
      r2.skills.countP (fun p => decide (p.1 = "alpha")) = 1 ∧
      r2.get "alpha" = Except.ok skillAlphaV2 ∧
      (registryWithBeta = SkillRegistry.empty → r2.size = 1) :=
  register_overwrite_spec registryWithBeta skillAlpha skillAlphaV2 "alpha"
    ⟨by decide, by decide⟩ rfl rfl rfl rfl

/-- C6: registration fails, with a `ValidationError`, exactly when the
bundle's name is empty, its description is empty, it has no tools, or it
has no loader tool; every registration failure is such a validation
failure (and the embedding returns the caller's registry unchanged, since
`validate` runs before any mutation). -/
theorem register_validation_spec (r : SkillRegistry) (skill : BaseSkill) :
    ((∃ msg, r.register skill = Except.error (SkillError.validationError msg)) ↔
      (skill.metadata.name = "" ∨ skill.metadata.description = "" ∨
       skill.get_tools = [] ∨ skill.get_loader_tool = none)) ∧
    ∀ e, r.register skill = Except.error e →
      ∃ msg, e = SkillError.validationError msg := by
  constructor
  · rw [exists_congr (fun msg => register_error_iff_validate r skill
      (SkillError.validationError msg))]
    exact validate_error_iff skill
  · intro e he
    exact validate_error_shape skill e ((register_error_iff_validate r skill e).mp he)

/-- C6 witness. -/
theorem register_validation_spec_witness :
    ∃ msg, SkillRegistry.empty.register badSkillNoTools
      = Except.error (SkillError.validationError msg) :=
  (register_validation_spec SkillRegistry.empty badSkillNoTools).1.mpr
    (Or.inr (Or.inr (Or.inl rfl)))

/-- C7: on a well-formed registry, `get(n)` fails — always with
`NotFoundError` — exactly when `n` is not registered; a successful lookup
returns a bundle whose metadata name is `n`; and a bundle that was just
validly registered is retrieved back unchanged under its own name. -/
theorem get_spec (r : SkillRegistry) (n : String) (hwf : r.wf) :
    (r.get n = Except.error (SkillError.notFoundError n) ↔ r.hasSkill n = false) ∧
    (∀ e, r.get n = Except.error e → e = SkillError.notFoundError n) ∧
    (∀ s, r.get n = Except.ok s → s.metadata.name = n) ∧
    (∀ A r1, r.register A = Except.ok r1 → r1.get A.metadata.name = Except.ok A) := by
  refine ⟨?_, ?_, ?_, ?_⟩
  · unfold SkillRegistry.get SkillRegistry.hasSkill
    cases h : dictGet r.skills n <;> simp [h]
  · intro e he
    unfold SkillRegistry.get at he
    cases h : dictGet r.skills n
    · simp only [h, Except.error.injEq] at he
      exact he.symm
    · simp [h] at he
  · intro s hs
    unfold SkillRegistry.get at hs
    cases h : dictGet r.skills n
    · simp [h] at hs
    · simp only [h, Except.ok.injEq] at hs
      subst hs
      exact hwf.2 _ (dictGet_mem _ _ _ h)
  · intro A r1 hr
    unfold SkillRegistry.register at hr
    cases hv : A.validate with
    | error e => simp [hv] at hr
    | ok b =>
      simp only [hv, Except.ok.injEq] at hr
      subst hr
      unfold SkillRegistry.get
      simp [dictGet_dictInsert_self]

/-- C7 witness. -/
theorem get_spec_witness :
    SkillRegistry.empty.get "alpha"
      = Except.error (SkillError.notFoundError "alpha") :=
  (get_spec SkillRegistry.empty "alpha"
    ⟨by simp [SkillRegistry.empty], by simp [SkillRegistry.empty]⟩).1.mpr rfl

/-- C8: discovery never fails as a whole — a missing root directory gives
count 0 with the registry untouched, each entry that is skipped or whose
load or registration raises contributes nothing, and the returned count is
exactly the number of entries whose bundle loads and registers
successfully; in particular one valid plus one malformed bundle give
count 1. -/
theorem discover_and_load_spec (r : SkillRegistry) (entries : List DirEntry) :
    r.discover_and_load none = (r, 0) ∧
    (r.discover_and_load (some entries)).2 = entries.countP entrySucceeds ∧
    (SkillRegistry.empty.discover_and_load
        (some [DirEntry.loadedSkill skillAlpha,
               DirEntry.loadedSkill badSkillNoTools])).2 = 1 := by
  refine ⟨rfl, ?_, rfl⟩
  unfold SkillRegistry.discover_and_load
  simpa using discover_foldl_count entries r 0

/-- C9: the synchronous and asynchronous model-call wrappers compute the
same tool list, and both equal
`registry.get_tools_for_skills(skills_loaded)` — the filter is a pure
function of the registry and the session state. -/
theorem middleware_sync_async_agree (m : SkillMiddleware) (req : ModelRequest) :
    m.wrap_model_call_tools req = m.awrap_model_call_tools req ∧
    m.wrap_model_call_tools req
      = m.registry.get_tools_for_skills (readSkillsLoaded req) :=
  ⟨rfl, rfl⟩

/-- C10: the stored secondary predicate `filter_fn` never changes the
computed tool list — a middleware built with `filter_fn = some f` computes
exactly what one built with `filter_fn = none` computes, namely
`registry.get_tools_for_skills(skills_loaded)`, while the predicate is
stored untouched. -/
theorem filter_fn_unused (reg : SkillRegistry) (v : Bool) (f : Tool → Bool)
    (req : ModelRequest) :
    (SkillMiddleware.mk reg v (some f)).wrap_model_call_tools req
      = (SkillMiddleware.mk reg v none).wrap_model_call_tools req ∧
    (SkillMiddleware.mk reg v (some f)).wrap_model_call_tools req
      = reg.get_tools_for_skills (readSkillsLoaded req) ∧
    (SkillMiddleware.mk reg v (some f)).filter_fn = some f :=
  ⟨rfl, rfl, rfl⟩

end SkillSystem
